import Mathlib

/-!
Verification of the selection/cursor state machine and text-transform
algorithms of the "essential shortcuts" editor extension.

The document model follows the host editor's conventions: a document is an
ordered list of lines (each a list of characters, newline-free by the host's
invariant), a position is a (line, column) pair, a selection an anchor/head
pair of positions.  Handlers are translated from the source file
(`handleSelectLine`, `handleSelectAllOccurrences`, `handleDuplicateLineDown`,
`handleInsertCursorBelow`, `handleInsertCursorAbove`,
`handleSelectWordOrExpand`, `handleToggleCase`) as functions on this state.
JavaScript string primitives used by the source (`split("\n")`,
`lastIndexOf`, `indexOf`, `slice`, `RegExp.exec` with the `g` flag) are
modelled by executable functions with the same semantics on the fragment the
source exercises; each model documents its scope.
-/

/-- A (line, column) position; column counts code units within the line. -/
structure Pos where
  line : Nat
  ch : Nat
deriving DecidableEq, Repr

/-- A selection: anchor (where it started) and head (where it ends). -/
structure Sel where
  anchor : Pos
  head : Pos
deriving DecidableEq, Repr

/-- A document: the host editor's ordered list of lines (newline-free). -/
abbrev Doc := List (List Char)

/-- Editor snapshot: document plus the ordered selection set. -/
structure EditorState where
  doc : Doc
  sels : List Sel
deriving DecidableEq, Repr

/-- `editor.getLine(n)` — the n-th line (empty for out-of-range reads). -/
def getLine (doc : Doc) (n : Nat) : List Char :=
  doc.getD n []

/-- JS `lines.join("\n")`: the flat document text, used by `getValue()`. -/
def joinNl : List (List Char) → List Char
  | [] => []
  | [l] => l
  | l :: ls => l ++ '\n' :: joinNl ls

/-- `editor.getValue()` — the whole document as flat text. -/
def getValue (doc : Doc) : List Char :=
  joinNl doc

/-- Flat offset of a (line, column) position in the document text. -/
def offsetOfPos (doc : Doc) (p : Pos) : Nat :=
  (doc.take p.line).foldl (fun a l => a + l.length + 1) 0 + p.ch

/-- `editor.getCursor()` — the head of the primary (last) selection. -/
def getCursor (st : EditorState) : Pos :=
  (st.sels.getLast?.getD ⟨⟨0, 0⟩, ⟨0, 0⟩⟩).head

/-- `editor.somethingSelected()` — some selection is non-collapsed. -/
def somethingSelected (st : EditorState) : Bool :=
  st.sels.any (fun s => decide (s.anchor ≠ s.head))

/-- `editor.getSelection()` — the text of the primary (last) selection. -/
def getSelectionText (st : EditorState) : List Char :=
  match st.sels.getLast? with
  | none => []
  | some s =>
    let a := offsetOfPos st.doc s.anchor
    let b := offsetOfPos st.doc s.head
    ((getValue st.doc).take (max a b)).drop (min a b)

/-- Number of newline characters in a piece of flat text. -/
def countNl (s : List Char) : Nat :=
  s.countP (fun c => decide (c = '\n'))

/-- JS `text.split("\n")`: n newlines give n+1 parts. -/
def splitNl : List Char → List (List Char)
  | [] => [[]]
  | c :: rest =>
    if c = '\n' then [] :: splitNl rest
    else
      match splitNl rest with
      | [] => [[c]]
      | h :: t => (c :: h) :: t

/-- Index of the last newline of a piece of flat text, if any
(JS `text.lastIndexOf("\n")` is this, with `none` rendered as -1). -/
def lastNlAux : List Char → Option Nat
  | [] => none
  | c :: rest =>
    match lastNlAux rest with
    | some i => some (i + 1)
    | none => if c = '\n' then some 0 else none

/-- JS `text.lastIndexOf("\n")` with its -1 convention. -/
def lastNlInt (s : List Char) : Int :=
  match lastNlAux s with
  | none => -1
  | some i => i

/-- First index at or after `j` (within `fuel` candidates) where `p` holds. -/
def scanFirst (p : Nat → Bool) : Nat → Nat → Option Nat
  | _, 0 => none
  | j, fuel + 1 => if p j then some j else scanFirst p (j + 1) fuel

/-- Literal match of `pat` against the front of `s` (plain substring test). -/
def litHere : List Char → List Char → Bool
  | _, [] => true
  | [], _ :: _ => false
  | c :: cs, p :: ps => decide (c = p) && litHere cs ps

/-- `pat` occurs literally in `text` at index `j`. -/
def occursAtB (text pat : List Char) (j : Nat) : Bool :=
  litHere (text.drop j) pat

/-- JS `text.indexOf(pat, start)` for non-empty `pat`: the least index at or
after `start` where `pat` occurs literally, if any. -/
def indexOfFrom (text pat : List Char) (start : Nat) : Option Nat :=
  scanFirst (fun j => occursAtB text pat j) start (text.length + 1 - start)

/-- One pattern token matched against one text character.  Models a JS
regular expression character on the fragment the proofs use: `.` matches
any character except a newline and every other character matches itself
literally.  The model is faithful only for patterns built from literal
characters and `.` — no alternation, escapes, character classes,
quantifiers or anchors — and every concrete pattern a theorem below feeds
to it lies in that fragment. -/
def reTokMatches (p c : Char) : Bool :=
  if p = '.' then decide (c ≠ '\n') else decide (c = p)

/-- The modelled regex pattern matches at the front of `s`. -/
def reHere : List Char → List Char → Bool
  | _, [] => true
  | [], _ :: _ => false
  | c :: cs, p :: ps => reTokMatches p c && reHere cs ps

/-- The modelled regex pattern matches `text` at index `j`. -/
def reMatchAt (text pat : List Char) (j : Nat) : Bool :=
  reHere (text.drop j) pat

/-- One `regex.exec` step: the first match position at or after `lastIndex`
(`null`, i.e. `none`, when there is none before the end of the text). -/
def findFrom (text pat : List Char) (lastIndex : Nat) : Option Nat :=
  scanFirst (fun j => reMatchAt text pat j) lastIndex (text.length + 1 - lastIndex)

/-- The `while ((match = regex.exec(allText)) !== null)` loop of
`handleSelectAllOccurrences`: collects match indices, each step advancing
`lastIndex` by the match length.  In this model every match of a pattern
has the pattern's length — exactly what JS produces for the
literal-and-dot fragment (where no alternation or quantifier can change a
match's length), and zero for the empty pattern.  `none` means the fuel
ran out, i.e. the loop was still running. -/
def execLoop (text pat : List Char) : Nat → Nat → Option (List Nat)
  | 0, _ => none
  | fuel + 1, lastIndex =>
    match findFrom text pat lastIndex with
    | none => some []
    | some j =>
      match execLoop text pat fuel (j + pat.length) with
      | none => none
      | some ms => some (j :: ms)

/-- The full occurrence scan, with enough fuel for any non-empty pattern. -/
def allMatches (text pat : List Char) : Option (List Nat) :=
  execLoop text pat (text.length + 2) 0

/-- JS `line.indexOf(c, start)` for a single character `c`. -/
def jsIndexOfChar (line : List Char) (c : Char) (start : Nat) : Option Nat :=
  scanFirst (fun j => decide (j < line.length) && decide (line.getD j c = c))
    start (line.length - start)

/-- Last index at or before `k` where `p` holds. -/
def lastScan (p : Nat → Bool) : Nat → Option Nat
  | 0 => if p 0 then some 0 else none
  | k + 1 => if p (k + 1) then some (k + 1) else lastScan p k

/-- JS `line.lastIndexOf(c, fromIdx)` for a single character: the largest
match index at or before `fromIdx`, with `fromIdx` clamped into the string
and -1 returned when there is no match. -/
def jsLastIndexOfCharI (line : List Char) (c : Char) (fromIdx : Int) : Int :=
  let pos : Nat := min (max fromIdx 0).toNat line.length
  match lastScan (fun j => decide (j < line.length) && decide (line.getD j c = c)) pos with
  | some k => k
  | none => -1

/-- The word under the cursor as `handleSelectWordOrExpand` and
`handleSelectAllOccurrences` compute it: from just past the previous space
(`line.lastIndexOf(" ", ch - 1) + 1`) up to the next space
(`line.indexOf(" ", ch)`, end of line when none), via `line.slice`. -/
def wordAt (line : List Char) (ch : Nat) : List Char :=
  let wordStart : Nat := (jsLastIndexOfCharI line ' ' ((ch : Int) - 1) + 1).toNat
  let wordEnd : Option Nat := jsIndexOfChar line ' ' ch
  (line.take (wordEnd.getD line.length)).drop wordStart

/-- The search text `handleSelectAllOccurrences` derives: the selection text
when non-empty, else the word under the cursor. -/
def textToSelectOf (st : EditorState) : List Char :=
  let cursor := getCursor st
  let line := getLine st.doc cursor.line
  let selectedText := getSelectionText st
  if selectedText.isEmpty then wordAt line cursor.ch else selectedText

/-- The selection `handleSelectAllOccurrences` builds for a match at flat
index `idx`: line from `allText.slice(0, idx).split("\n").length - 1`, start
column from `idx - allText.slice(0, idx).lastIndexOf("\n") - 1`, end column
the same plus the search-text length, on the same line. -/
def mkOccSel (allText textToSelect : List Char) (idx : Nat) : Sel :=
  let preText := allText.take idx
  ⟨⟨(splitNl preText).length - 1, ((idx : Int) - lastNlInt preText - 1).toNat⟩,
   ⟨(splitNl preText).length - 1,
    ((idx : Int) + textToSelect.length - lastNlInt preText - 1).toNat⟩⟩

/-- `handleSelectAllOccurrences` in execution mode: derives the search text,
runs the global `RegExp.exec` scan over `getValue()`, maps each match to a
selection and applies them when at least one match was found.  `none` means
the scan loop never terminated (the fuel of `allMatches` is enough for every
terminating run). -/
def handleSelectAllOccurrencesRun (st : EditorState) : Option EditorState :=
  let textToSelect := textToSelectOf st
  let allText := getValue st.doc
  match allMatches allText textToSelect with
  | none => none
  | some ms =>
    let sels := ms.map (mkOccSel allText textToSelect)
    some (if sels.length > 0 then { st with sels := sels } else st)

/-- Append `post` to the last element of a non-empty list of lines. -/
def attachLast (post : List Char) : List (List Char) → List (List Char)
  | [] => [post]
  | [p] => [p ++ post]
  | p :: ps => p :: attachLast post ps

/-- Splice the lines of an inserted text between the two halves of the line
the insertion point splits. -/
def spliceLines (pre post : List Char) : List (List Char) → List (List Char)
  | [] => [pre ++ post]
  | [p] => [pre ++ p ++ post]
  | p :: ps => (pre ++ p) :: attachLast post ps

/-- `editor.replaceRange(text, {line: l, ch: c})` in insert-only form: the
text (which may contain newlines) is inserted at position (l, c). -/
def insertAt (doc : Doc) (l c : Nat) (text : List Char) : Doc :=
  doc.take l ++
    spliceLines ((getLine doc l).take c) ((getLine doc l).drop c) (splitNl text) ++
    doc.drop (l + 1)

/-- One iteration of the `selections.forEach` body of the multi-selection
`handleDuplicateLineDown`: collect the lines of the selection's span, insert
a newline plus their join after the end of `endLine`, and record the new
selection computed from the pre-loop selection (reading `endLine`'s length
for the fallback head column from the already-edited document, as the source
does). -/
def dupDownStep (acc : Doc × List Sel) (sel : Sel) : Doc × List Sel :=
  let doc := acc.1
  let startLine := min sel.anchor.line sel.head.line
  let endLine := max sel.anchor.line sel.head.line
  let linesToDuplicate :=
    (List.range (endLine - startLine + 1)).map (fun i => getLine doc (startLine + i))
  let doc2 := insertAt doc endLine (getLine doc endLine).length
    ('\n' :: joinNl linesToDuplicate)
  let linesCount := endLine - startLine + 1
  let newSel : Sel :=
    ⟨⟨endLine + 1, if sel.anchor.line = startLine then sel.anchor.ch else 0⟩,
     ⟨endLine + linesCount,
      if sel.head.line = endLine then sel.head.ch else (getLine doc2 endLine).length⟩⟩
  (doc2, acc.2 ++ [newSel])

/-- The multi-selection `handleDuplicateLineDown`: edit per selection in
order, then apply all recomputed selections at once. -/
def handleDuplicateLineDown (st : EditorState) : EditorState :=
  let r := st.sels.foldl dupDownStep (st.doc, [])
  ⟨r.1, r.2⟩

/-- Delete `n` whole lines starting at line index `i` (each with the line
break that introduced it). -/
def deleteLines (d : Doc) (i n : Nat) : Doc :=
  d.take i ++ d.drop (i + n)

/-- The plugin's session state for the line-select run
(`selectLineCount`, `lastSelectedLine`; the latter starts at -1). -/
structure LineSelState where
  selectLineCount : Nat
  lastSelectedLine : Int
deriving DecidableEq, Repr

/-- Clip a (line, column) pair the way the host clips the arguments of
`setSelection`: a position on a line at or past the end of the document
becomes the end of the last line (last line, column = its length); a
negative line becomes line 0; otherwise the column is clamped into
`[0, length of that line]`. -/
def clampPos (doc : Doc) (l c : Int) : Pos :=
  if (doc.length : Int) ≤ l then
    ⟨doc.length - 1, (getLine doc (doc.length - 1)).length⟩
  else
    let ln : Nat := (max l 0).toNat
    ⟨ln, min (max c 0).toNat (getLine doc ln).length⟩

/-- `handleSelectLine`: reset the run when nothing is selected, then select
from column 0 of `lastSelectedLine` to column 0 of
`lastSelectedLine + selectLineCount + 1` (one line on the first press), and
increment `selectLineCount`. -/
def handleSelectLine (ps : LineSelState) (st : EditorState) :
    LineSelState × EditorState :=
  let cursor := getCursor st
  let currentLine := cursor.line
  let ps1 := if somethingSelected st then ps else ⟨0, (currentLine : Int)⟩
  let st1 :=
    if ps1.selectLineCount = 0 then
      { st with sels := [⟨clampPos st.doc ps1.lastSelectedLine 0,
                          clampPos st.doc (ps1.lastSelectedLine + 1) 0⟩] }
    else
      { st with sels := [⟨clampPos st.doc ps1.lastSelectedLine 0,
                          clampPos st.doc
                            (ps1.lastSelectedLine + ps1.selectLineCount + 1) 0⟩] }
  (⟨ps1.selectLineCount + 1, ps1.lastSelectedLine⟩, st1)

/-- `k` successive line-select invocations with no intervening event. -/
def runSelectLine : Nat → LineSelState × EditorState → LineSelState × EditorState
  | 0, q => q
  | n + 1, q => handleSelectLine (runSelectLine n q).1 (runSelectLine n q).2

/-- `handleInsertCursorBelow`: keep every selection's anchor as a cursor and,
for each selection whose next line exists, add a cursor on that line at the
anchor column clamped to the line's length. -/
def handleInsertCursorBelow (st : EditorState) : EditorState :=
  let newCursors := st.sels.map (fun s => s.anchor) ++
    st.sels.filterMap (fun s =>
      let lineBelow := s.anchor.line + 1
      if lineBelow < st.doc.length then
        some ⟨lineBelow, min s.anchor.ch (getLine st.doc lineBelow).length⟩
      else none)
  { st with sels := newCursors.map (fun p => ⟨p, p⟩) }

/-- `handleInsertCursorAbove`: mirror image, guarding `line - 1 >= 0`. -/
def handleInsertCursorAbove (st : EditorState) : EditorState :=
  let newCursors := st.sels.map (fun s => s.anchor) ++
    st.sels.filterMap (fun s =>
      if 1 ≤ s.anchor.line then
        let lineAbove := s.anchor.line - 1
        some ⟨lineAbove, min s.anchor.ch (getLine st.doc lineAbove).length⟩
      else none)
  { st with sels := newCursors.map (fun p => ⟨p, p⟩) }

/-- `handleSelectWordOrExpand` (accumulating variant): with a non-empty
selection, find the next literal occurrence of the selected text on the
cursor's line starting from the last selection's head column and append it
as a new selection; with an empty selection, select the word under the
cursor. -/
def handleSelectWordOrExpand (st : EditorState) : EditorState :=
  let cursor := getCursor st
  let line := getLine st.doc cursor.line
  let selectedText := getSelectionText st
  if selectedText.isEmpty then
    let wordStart : Nat := (jsLastIndexOfCharI line ' ' ((cursor.ch : Int) - 1) + 1).toNat
    let word := wordAt line cursor.ch
    { st with sels := [⟨⟨cursor.line, wordStart⟩, ⟨cursor.line, wordStart + word.length⟩⟩] }
  else
    match st.sels.getLast? with
    | none => st
    | some lastSelection =>
      let lastEndIndex := lastSelection.head.ch
      match indexOfFrom line selectedText lastEndIndex with
      | some nextIndex =>
        { st with sels := st.sels ++
            [⟨⟨cursor.line, nextIndex⟩, ⟨cursor.line, nextIndex + selectedText.length⟩⟩] }
      | none => st

/-- Lowercase ASCII letters, paired with `upperAlpha` below. -/
def lowerAlpha : List Char := "abcdefghijklmnopqrstuvwxyz".toList

/-- Uppercase ASCII letters. -/
def upperAlpha : List Char := "ABCDEFGHIJKLMNOPQRSTUVWXYZ".toList

/-- JS `char.toUpperCase()` on one character.  Models the host's
Unicode-aware conversion on the fragment relevant here: ASCII letters map to
their uppercase forms, U+00DF LATIN SMALL LETTER SHARP S maps to the
two-character string "SS" (as it does in JavaScript), and every other
character in scope is caseless and maps to itself. -/
def jsToUpperChar (c : Char) : List Char :=
  if c = 'ß' then ['S', 'S']
  else
    match (lowerAlpha.zip upperAlpha).lookup c with
    | some u => [u]
    | none => [c]

/-- JS `char.toLowerCase()` on one character, on the same fragment
(the sharp s lowercases to itself). -/
def jsToLowerChar (c : Char) : List Char :=
  match (upperAlpha.zip lowerAlpha).lookup c with
  | some l => [l]
  | none => [c]

/-- The per-character body of `handleToggleCase`:
`char === char.toUpperCase() ? char.toLowerCase() : char.toUpperCase()`. -/
def toggleCharCase (c : Char) : List Char :=
  if jsToUpperChar c = [c] then jsToLowerChar c else jsToUpperChar c

/-- The whole toggle transform: `split("").map(...).join("")`. -/
def toggleCase : List Char → List Char
  | [] => []
  | c :: t => toggleCharCase c ++ toggleCase t

/-- The 128 ASCII characters. -/
def asciiChars : List Char := (List.range 128).map Char.ofNat

/-- Single-cursor editor view used by the `try`-guarded
`handleDuplicateLineDown` variant. -/
structure CursorEditor where
  doc : Doc
  cursor : Pos
deriving DecidableEq, Repr

/-- The body of the `try` block of the guarded `handleDuplicateLineDown`,
with an explicit fault point: `failAt = some i` makes the i-th host call
(0 `getCursor`, 1 `getLine`, 2 `replaceRange`, 3 `setCursor`) raise instead
of acting (host calls are atomic: a raising call has no effect); calls after
the raising one do not run.  Returns the editor state as left behind and
whether an exception was raised. -/
def dupDownTryRun (st : CursorEditor) (failAt : Option Nat) : CursorEditor × Bool :=
  if failAt = some 0 then (st, true)
  else
    let cursor := st.cursor
    if failAt = some 1 then (st, true)
    else
      let line := getLine st.doc cursor.line
      if failAt = some 2 then (st, true)
      else
        let st1 : CursorEditor :=
          ⟨insertAt st.doc cursor.line line.length ('\n' :: line), st.cursor⟩
        if failAt = some 3 then (st1, true)
        else (⟨st1.doc, ⟨cursor.line + 1, cursor.ch⟩⟩, false)

/-- The `try`-guarded `handleDuplicateLineDown` (execution mode): the catch
block only logs, so the handler returns `true` whatever happened inside and
leaves the editor as the body left it. -/
def handleDuplicateLineDownTry (st : CursorEditor) (failAt : Option Nat) :
    Bool × CursorEditor :=
  (true, (dupDownTryRun st failAt).1)

/-- The new cursors the claim describes for insert-cursor-below: for each
selection whose adjacent line `anchor.line + 1` lies within
`[0, lineCount)`, a cursor at that line with the anchor column clamped to
the line's length. -/
def claimNewCursorsBelow (st : EditorState) : List Pos :=
  st.sels.filterMap (fun s =>
    let adj := s.anchor.line + 1
    if adj < st.doc.length then
      some ⟨adj, min s.anchor.ch (getLine st.doc adj).length⟩
    else none)

/-- The new cursors the claim describes for insert-cursor-above: the
adjacent line is `anchor.line - 1`, required to lie within
`[0, lineCount)`. -/
def claimNewCursorsAbove (st : EditorState) : List Pos :=
  st.sels.filterMap (fun s =>
    if 1 ≤ s.anchor.line ∧ s.anchor.line - 1 < st.doc.length then
      some ⟨s.anchor.line - 1, min s.anchor.ch (getLine st.doc (s.anchor.line - 1)).length⟩
    else none)

/-- The set of literal substring occurrences of `pat` in `text` (all start
indices, ascending). -/
def literalOccurrences (text pat : List Char) : List Nat :=
  (List.range (text.length + 1)).filter (fun j => occursAtB text pat j)

/-- The coordinate the specification assigns to a flat offset `o`: line is
the number of newline characters strictly before `o`; column is `o` minus
the offset of the nearest preceding newline minus 1, or `o` itself when no
newline precedes `o`. -/
def specPosOfOffset (text : List Char) (o : Nat) : Pos :=
  ⟨countNl (text.take o),
   match lastNlAux (text.take o) with
   | none => o
   | some i => o - i - 1⟩

/-- Position order: `p` is at or before `q` in the document. -/
def posLeB (p q : Pos) : Bool :=
  decide (p.line < q.line) || (decide (p.line = q.line) && decide (p.ch ≤ q.ch))

/-- The selection covers the whole of line `l`: it starts at or before the
line's start and extends at least to the start of the next line — or, for
the last line of the document, to that line's end (the document's end). -/
def coversLineB (doc : Doc) (sel : Sel) (l : Nat) : Bool :=
  posLeB sel.anchor ⟨l, 0⟩ &&
    (if l + 1 < doc.length then posLeB ⟨l + 1, 0⟩ sel.head
     else posLeB ⟨l, (getLine doc l).length⟩ sel.head)

/-- How many full lines a (forward) selection covers. -/
def fullLinesCovered (doc : Doc) (sel : Sel) : Nat :=
  ((List.range doc.length).filter (coversLineB doc sel)).length

theorem splitNl_ne_nil (s : List Char) : splitNl s ≠ [] := by
  induction s with
  | nil => simp [splitNl]
  | cons c rest ih =>
    simp only [splitNl]
    split
    · simp
    · cases h : splitNl rest <;> simp

theorem splitNl_length (s : List Char) : (splitNl s).length = countNl s + 1 := by
  induction s with
  | nil => simp [splitNl, countNl]
  | cons c rest ih =>
    simp only [splitNl, countNl] at *
    split
    · simp_all [List.countP_cons]
    · cases h : splitNl rest with
      | nil => exact absurd h (splitNl_ne_nil rest)
      | cons hd tl =>
        rw [h] at ih
        simp_all [List.countP_cons]

theorem lastNlAux_lt_length (s : List Char) (i : Nat) (h : lastNlAux s = some i) :
    i < s.length := by
  induction s generalizing i with
  | nil => simp [lastNlAux] at h
  | cons c rest ih =>
    cases hr : lastNlAux rest with
    | some j =>
      simp only [lastNlAux, hr] at h
      cases h
      simpa using ih j hr
    | none =>
      simp only [lastNlAux, hr] at h
      split at h
      · cases h; simp
      · cases h

theorem countNl_append (a b : List Char) :
    countNl (a ++ b) = countNl a + countNl b := by
  simp [countNl, List.countP_append]

theorem lastNlAux_eq_none_of_no_nl (b : List Char) (hb : '\n' ∉ b) :
    lastNlAux b = none := by
  induction b with
  | nil => rfl
  | cons c rest ih =>
    simp only [List.mem_cons, not_or] at hb
    simp [lastNlAux, ih hb.2, hb.1, Ne.symm hb.1]

theorem lastNlAux_append_no_nl (a b : List Char) (hb : '\n' ∉ b) :
    lastNlAux (a ++ b) = lastNlAux a := by
  induction a with
  | nil => simpa using lastNlAux_eq_none_of_no_nl b hb
  | cons c rest ih =>
    simp only [List.cons_append, lastNlAux, List.append_eq, ih]

theorem scanFirst_some (p : Nat → Bool) :
    ∀ fuel j r, scanFirst p j fuel = some r →
      j ≤ r ∧ r < j + fuel ∧ p r = true ∧ ∀ m, j ≤ m → m < r → p m = false := by
  intro fuel
  induction fuel with
  | zero => intro j r h; simp [scanFirst] at h
  | succ f ih =>
    intro j r h
    simp only [scanFirst] at h
    by_cases hp : p j = true
    · rw [if_pos hp] at h
      cases h
      exact ⟨le_refl _, by omega, hp, fun m h1 h2 => by omega⟩
    · rw [if_neg hp] at h
      obtain ⟨h1, h2, h3, h4⟩ := ih (j + 1) r h
      refine ⟨by omega, by omega, h3, fun m hm1 hm2 => ?_⟩
      rcases Nat.eq_or_lt_of_le hm1 with rfl | hlt
      · exact Bool.eq_false_iff.mpr hp
      · exact h4 m hlt hm2

theorem scanFirst_none (p : Nat → Bool) :
    ∀ fuel j, scanFirst p j fuel = none →
      ∀ m, j ≤ m → m < j + fuel → p m = false := by
  intro fuel
  induction fuel with
  | zero => intro j _ m h1 h2; omega
  | succ f ih =>
    intro j h m h1 h2
    simp only [scanFirst] at h
    by_cases hp : p j = true
    · rw [if_pos hp] at h; cases h
    · rw [if_neg hp] at h
      rcases Nat.eq_or_lt_of_le h1 with rfl | hlt
      · exact Bool.eq_false_iff.mpr hp
      · exact ih (j + 1) h m hlt (by omega)

theorem litHere_length {s pat : List Char} (h : litHere s pat = true) :
    pat.length ≤ s.length := by
  induction pat generalizing s with
  | nil => simp
  | cons p ps ih =>
    cases s with
    | nil => simp [litHere] at h
    | cons c cs =>
      simp only [litHere, Bool.and_eq_true] at h
      simpa using ih h.2

theorem occursAtB_bound {text pat : List Char} {j : Nat} (hp : pat ≠ [])
    (h : occursAtB text pat j = true) : j + pat.length ≤ text.length := by
  have hlen := litHere_length h
  have hd : (text.drop j).length = text.length - j := by simp
  rw [hd] at hlen
  have hpos : 0 < pat.length := List.length_pos.mpr hp
  omega

theorem indexOfFrom_some {text pat : List Char} {start j : Nat}
    (h : indexOfFrom text pat start = some j) :
    start ≤ j ∧ occursAtB text pat j = true ∧
      ∀ m, start ≤ m → m < j → occursAtB text pat m = false := by
  obtain ⟨h1, _, h3, h4⟩ := scanFirst_some _ _ _ _ h
  exact ⟨h1, h3, h4⟩

theorem indexOfFrom_none {text pat : List Char} {start : Nat} (hp : pat ≠ [])
    (h : indexOfFrom text pat start = none) :
    ∀ m, start ≤ m → occursAtB text pat m = false := by
  intro m hm
  by_cases hin : m < start + (text.length + 1 - start)
  · exact scanFirst_none _ _ _ h m hm hin
  · by_contra hocc
    have := occursAtB_bound hp (Bool.not_eq_false _ |>.mp hocc)
    have hpos : 0 < pat.length := List.length_pos.mpr hp
    omega

theorem reHere_length {s pat : List Char} (h : reHere s pat = true) :
    pat.length ≤ s.length := by
  induction pat generalizing s with
  | nil => simp
  | cons p ps ih =>
    cases s with
    | nil => simp [reHere] at h
    | cons c cs =>
      simp only [reHere, Bool.and_eq_true] at h
      simpa using ih h.2

theorem reMatchAt_bound {text pat : List Char} {j : Nat} (hp : pat ≠ [])
    (h : reMatchAt text pat j = true) : j + pat.length ≤ text.length := by
  have hlen := reHere_length h
  have hd : (text.drop j).length = text.length - j := by simp
  rw [hd] at hlen
  have hpos : 0 < pat.length := List.length_pos.mpr hp
  omega

theorem execLoop_isSome {text pat : List Char} (hp : pat ≠ []) :
    ∀ fuel lastIndex, text.length + 1 - lastIndex < fuel →
      (execLoop text pat fuel lastIndex).isSome := by
  intro fuel
  induction fuel with
  | zero => intro lastIndex h; omega
  | succ f ih =>
    intro lastIndex h
    cases hf : findFrom text pat lastIndex with
    | none => simp [execLoop, hf]
    | some j =>
      obtain ⟨hj1, _, hj3, _⟩ := scanFirst_some _ _ _ _ hf
      have hb := reMatchAt_bound hp hj3
      have hpos : 0 < pat.length := List.length_pos.mpr hp
      have hrec := ih (j + pat.length) (by omega)
      simp only [execLoop, hf]
      cases hx : execLoop text pat f (j + pat.length) with
      | none => rw [hx] at hrec; simp at hrec
      | some ms => simp

theorem execLoop_matches {text pat : List Char} :
    ∀ fuel lastIndex ms, execLoop text pat fuel lastIndex = some ms →
      ∀ o ∈ ms, reMatchAt text pat o = true := by
  intro fuel
  induction fuel with
  | zero => intro lastIndex ms h; simp [execLoop] at h
  | succ f ih =>
    intro lastIndex ms h o ho
    simp only [execLoop] at h
    cases hf : findFrom text pat lastIndex with
    | none => simp only [hf] at h; cases h; simp at ho
    | some j =>
      simp only [hf] at h
      cases hrec : execLoop text pat f (j + pat.length) with
      | none => simp only [hrec] at h; cases h
      | some ms' =>
        simp only [hrec] at h
        cases h
        rcases List.mem_cons.mp ho with rfl | hmem
        · exact (scanFirst_some _ _ _ _ hf).2.2.1
        · exact ih _ _ hrec o hmem

theorem allMatches_isSome {text pat : List Char} (hp : pat ≠ []) :
    (allMatches text pat).isSome :=
  execLoop_isSome hp _ 0 (by omega)

theorem execLoop_empty_pat_none {text : List Char} :
    ∀ fuel lastIndex, lastIndex ≤ text.length →
      execLoop text [] fuel lastIndex = none := by
  intro fuel
  induction fuel with
  | zero => intro lastIndex _; rfl
  | succ f ih =>
    intro lastIndex hle
    have hfind : findFrom text [] lastIndex = some lastIndex := by
      obtain ⟨g, hg⟩ : ∃ g, text.length + 1 - lastIndex = g + 1 :=
        ⟨text.length - lastIndex, by omega⟩
      simp [findFrom, hg, scanFirst, reMatchAt, reHere]
    simp only [execLoop, hfind, List.length_nil, Nat.add_zero]
    simp only [ih lastIndex hle]

theorem filterMap_congr_mem {α β : Type} {l : List α} {f g : α → Option β}
    (h : ∀ a ∈ l, f a = g a) : l.filterMap f = l.filterMap g := by
  induction l with
  | nil => rfl
  | cons a t ih =>
    simp only [List.filterMap_cons, h a (List.mem_cons_self a t)]
    rw [ih (fun x hx => h x (List.mem_cons_of_mem a hx))]

/-- C5: insert-cursor-below (and symmetrically insert-cursor-above) keeps
every existing selection's anchor point, in source order, and then appends,
in source order, one collapsed selection per selection whose adjacent line
lies within `[0, lineCount)`, at the adjacent line with column
`min(original anchor column, length of the adjacent line)`; selections whose
adjacent line is out of bounds contribute no new cursor. -/
theorem c5_insert_cursor_fan_out (st : EditorState)
    (h : ∀ s ∈ st.sels, s.anchor.line < st.doc.length) :
    handleInsertCursorBelow st =
      { st with sels := ((st.sels.map (fun s => s.anchor) ++ claimNewCursorsBelow st).map (fun p => ⟨p, p⟩)) } ∧
    handleInsertCursorAbove st =
      { st with sels := ((st.sels.map (fun s => s.anchor) ++ claimNewCursorsAbove st).map (fun p => ⟨p, p⟩)) } := by
  constructor
  · rfl
  · have hcong : st.sels.filterMap (fun s =>
        if 1 ≤ s.anchor.line then
          some (⟨s.anchor.line - 1,
            min s.anchor.ch (getLine st.doc (s.anchor.line - 1)).length⟩ : Pos)
        else none) = claimNewCursorsAbove st := by
      apply filterMap_congr_mem
      intro s hs
      have hlt := h s hs
      by_cases h1 : 1 ≤ s.anchor.line
      · have h2 : s.anchor.line - 1 < st.doc.length := by omega
        simp [h1, h2]
      · simp [h1]
    simp only [handleInsertCursorAbove, claimNewCursorsAbove] at *
    rw [hcong]

/-- C5 witness: a cursor at column 5 on a line of length 10 with a line of
length 3 below gains a new cursor at column 3 (and the above direction adds
none at the top of the document). -/
theorem c5_insert_cursor_fan_out_witness :
    handleInsertCursorBelow
        ⟨[['a','a','a','a','a','a','a','a','a','a'], ['b','b','b']],
         [⟨⟨0,5⟩,⟨0,5⟩⟩]⟩ =
      ⟨[['a','a','a','a','a','a','a','a','a','a'], ['b','b','b']],
       [⟨⟨0,5⟩,⟨0,5⟩⟩, ⟨⟨1,3⟩,⟨1,3⟩⟩]⟩ ∧
    handleInsertCursorAbove
        ⟨[['a','a','a','a','a','a','a','a','a','a'], ['b','b','b']],
         [⟨⟨0,5⟩,⟨0,5⟩⟩]⟩ =
      ⟨[['a','a','a','a','a','a','a','a','a','a'], ['b','b','b']],
       [⟨⟨0,5⟩,⟨0,5⟩⟩]⟩ := by
  have h := c5_insert_cursor_fan_out
    ⟨[['a','a','a','a','a','a','a','a','a','a'], ['b','b','b']],
     [⟨⟨0,5⟩,⟨0,5⟩⟩]⟩ (by decide)
  exact ⟨h.1.trans (by decide), h.2.trans (by decide)⟩

theorem toggleCase_append (a b : List Char) :
    toggleCase (a ++ b) = toggleCase a ++ toggleCase b := by
  induction a with
  | nil => rfl
  | cons c t ih => simp [toggleCase, ih]

set_option maxRecDepth 4000 in
theorem toggle_toggle_ascii_char : ∀ c ∈ asciiChars, toggleCase (toggleCharCase c) = [c] := by
  decide

/-- C8 counterexample: toggle-case is not an involution on every selection
text — on "ß" (whose uppercase form is the two-character "SS") a double
application yields "ss", not the original. -/
theorem c8_toggle_involution_counterexample :
    toggleCase (toggleCase ['ß']) = ['s', 's'] ∧ ['s', 's'] ≠ ['ß'] := by
  decide

/-- C8 (amended): toggle-case is an involution on every selection text whose
characters are ASCII (where each character's case transforms are single
characters); the single application lowers a character that equals its own
uppercase form and uppers every other, and is the identity on caseless
characters. -/
theorem c8_toggle_involution_ascii (s : List Char) (h : ∀ c ∈ s, c ∈ asciiChars) :
    toggleCase (toggleCase s) = s := by
  induction s with
  | nil => rfl
  | cons c t ih =>
    have hc : c ∈ asciiChars := h c (List.mem_cons_self c t)
    have ht : ∀ x ∈ t, x ∈ asciiChars := fun x hx => h x (List.mem_cons_of_mem c hx)
    calc toggleCase (toggleCase (c :: t))
        = toggleCase (toggleCharCase c ++ toggleCase t) := rfl
      _ = toggleCase (toggleCharCase c) ++ toggleCase (toggleCase t) :=
          toggleCase_append _ _
      _ = [c] ++ toggleCase (toggleCase t) := by
          rw [toggle_toggle_ascii_char c hc]
      _ = c :: t := by rw [ih ht]; rfl

/-- C8 witness: the involution at the concrete ASCII selection "Ab3 z!". -/
theorem c8_toggle_involution_ascii_witness :
    toggleCase (toggleCase "Ab3 z!".toList) = "Ab3 z!".toList :=
  c8_toggle_involution_ascii "Ab3 z!".toList (by decide)

/-- C9 counterexample: when the host `setCursor` call raises after
`replaceRange` already ran, the guarded duplicate-line-down still catches
the exception and returns `true`, but the document keeps the inserted
duplicate — it is not left unmodified. -/
theorem c9_catch_counterexample :
    handleDuplicateLineDownTry ⟨[['a']], ⟨0, 0⟩⟩ (some 3) =
        (true, ⟨[['a'], ['a']], ⟨0, 0⟩⟩) ∧
    (dupDownTryRun ⟨[['a']], ⟨0, 0⟩⟩ (some 3)).2 = true ∧
    ([['a'], ['a']] : Doc) ≠ [['a']] := by
  decide

/-- C9 (amended): whatever host call raises, the guarded handler catches the
exception and still returns `true`; the document (indeed the whole editor
state) is left unmodified whenever the raising call is at or before the
`replaceRange` mutation (`getCursor`, `getLine`, `replaceRange` itself); a
raise in the later `setCursor` leaves the already-inserted duplicate in
place. -/
theorem c9_catch_all_or_nothing (st : CursorEditor) :
    (∀ failAt, (handleDuplicateLineDownTry st failAt).1 = true) ∧
    (∀ i, i ≤ 2 →
      (handleDuplicateLineDownTry st (some i)).2 = st ∧
      (dupDownTryRun st (some i)).2 = true) := by
  refine ⟨fun failAt => rfl, fun i hi => ?_⟩
  interval_cases i <;> simp [handleDuplicateLineDownTry, dupDownTryRun]

/-- C9 witness: the guarded handler at a concrete editor state with the
`replaceRange` call raising: returns `true`, editor unchanged. -/
theorem c9_catch_all_or_nothing_witness :
    (handleDuplicateLineDownTry ⟨[['a']], ⟨0, 0⟩⟩ (some 2)).2 = ⟨[['a']], ⟨0, 0⟩⟩ ∧
    (handleDuplicateLineDownTry ⟨[['a']], ⟨0, 0⟩⟩ (some 2)).1 = true :=
  ⟨((c9_catch_all_or_nothing ⟨[['a']], ⟨0, 0⟩⟩).2 2 (by omega)).1,
   (c9_catch_all_or_nothing ⟨[['a']], ⟨0, 0⟩⟩).1 (some 2)⟩

/-- C10: at the concrete state with a single empty line and a collapsed
cursor, the derived search text is empty, and the occurrence-scan loop runs
out of any amount of fuel without terminating (a zero-length regex match
never advances `lastIndex`), so the handler never returns. -/
theorem c10_empty_search_nontermination :
    textToSelectOf ⟨[[]], [⟨⟨0, 0⟩, ⟨0, 0⟩⟩]⟩ = [] ∧
    (∀ fuel, execLoop (getValue [[]]) [] fuel 0 = none) ∧
    handleSelectAllOccurrencesRun ⟨[[]], [⟨⟨0, 0⟩, ⟨0, 0⟩⟩]⟩ = none := by
  refine ⟨by decide, fun fuel => execLoop_empty_pat_none fuel 0 (by decide), by decide⟩

/-- C2: with the selection "." in the document "a.b", select-all-occurrences
treats the search text as a regex pattern, so "." matches every character
and three selections are produced, while the literal substring occurrence
set is exactly {1}: the produced selections are not the literal occurrences. -/
theorem c2_regex_vs_literal :
    handleSelectAllOccurrencesRun ⟨[['a', '.', 'b']], [⟨⟨0, 1⟩, ⟨0, 2⟩⟩]⟩ =
        some ⟨[['a', '.', 'b']],
          [⟨⟨0, 0⟩, ⟨0, 1⟩⟩, ⟨⟨0, 1⟩, ⟨0, 2⟩⟩, ⟨⟨0, 2⟩, ⟨0, 3⟩⟩]⟩ ∧
    literalOccurrences ['a', '.', 'b'] ['.'] = [1] ∧
    ([⟨⟨0, 0⟩, ⟨0, 1⟩⟩, ⟨⟨0, 1⟩, ⟨0, 2⟩⟩, ⟨⟨0, 2⟩, ⟨0, 3⟩⟩] : List Sel) ≠
      [⟨⟨0, 1⟩, ⟨0, 2⟩⟩] := by
  decide

theorem mkOccSel_spec (text pat : List Char) (o : Nat) :
    mkOccSel text pat o =
      ⟨specPosOfOffset text o,
       ⟨(specPosOfOffset text o).line, (specPosOfOffset text o).ch + pat.length⟩⟩ := by
  cases hl : lastNlAux (text.take o) with
  | none =>
    simp only [mkOccSel, specPosOfOffset, lastNlInt, hl, Sel.mk.injEq, Pos.mk.injEq,
      splitNl_length]
    refine ⟨⟨by omega, by omega⟩, by omega, by omega⟩
  | some i =>
    have hi := lastNlAux_lt_length _ _ hl
    have hio : i < o := by
      have := List.length_take o text
      omega
    simp only [mkOccSel, specPosOfOffset, lastNlInt, hl, Sel.mk.injEq, Pos.mk.injEq,
      splitNl_length]
    refine ⟨⟨by omega, by omega⟩, by omega, by omega⟩

/-- C1 (amended): every match that select-all-occurrences reports at a flat
offset `o` — indeed any flat offset whatsoever, however the host's regular
expression engine produced it — is mapped to the claimed coordinate pair
(line = number of newline characters strictly before `o`; column = `o`
minus the offset of the nearest preceding newline minus 1, or `o` when no
newline precedes `o`), and the selection for that match spans from that
coordinate to the coordinate on the same line whose column is larger by the
search-text length: the code always keeps the start line and adds the
search text's length to the start column for the end point, which need not
be the coordinate of offset `o` plus the search-text length.  In
particular, on the document "ab\ncab\nabc" with search text "ab" the
produced selections are exactly {0,0}-{0,2}, {1,1}-{1,3}, {2,0}-{2,2} in
ascending document order. -/
theorem c1_occurrence_mapping :
    (∀ (allText textToSelect : List Char) (idx : Nat),
      mkOccSel allText textToSelect idx =
        ⟨specPosOfOffset allText idx,
         ⟨(specPosOfOffset allText idx).line,
          (specPosOfOffset allText idx).ch + textToSelect.length⟩⟩) ∧
    handleSelectAllOccurrencesRun
        ⟨[['a','b'], ['c','a','b'], ['a','b','c']], [⟨⟨0,0⟩,⟨0,2⟩⟩]⟩ =
      some ⟨[['a','b'], ['c','a','b'], ['a','b','c']],
        [⟨⟨0,0⟩,⟨0,2⟩⟩, ⟨⟨1,1⟩,⟨1,3⟩⟩, ⟨⟨2,0⟩,⟨2,2⟩⟩]⟩ :=
  ⟨mkOccSel_spec, by decide⟩

/-- C1 counterexample: with the multi-line search text "ab\ncd" (taken from
a selection spanning two lines) on the document "ab\ncd\nab\ncd", the match
at offset 0 gets the selection {0,0}-{0,5}, whose head is not the coordinate
of offset 0 + 5: that coordinate is {1,2}. -/
theorem c1_occurrence_mapping_counterexample :
    handleSelectAllOccurrencesRun
        ⟨[['a','b'], ['c','d'], ['a','b'], ['c','d']], [⟨⟨0,0⟩,⟨1,2⟩⟩]⟩ =
      some ⟨[['a','b'], ['c','d'], ['a','b'], ['c','d']],
        [⟨⟨0,0⟩,⟨0,5⟩⟩, ⟨⟨2,0⟩,⟨2,5⟩⟩]⟩ ∧
    specPosOfOffset (getValue [['a','b'], ['c','d'], ['a','b'], ['c','d']]) 5 =
      ⟨1, 2⟩ ∧
    (⟨0, 5⟩ : Pos) ≠ ⟨1, 2⟩ := by
  decide

/-- C1 witness: the mapping theorem applied to the match at offset 4 of the
claim's document, giving the selection {1,1}-{1,3}. -/
theorem c1_occurrence_mapping_witness :
    mkOccSel (getValue [['a','b'], ['c','a','b'], ['a','b','c']]) ['a','b'] 4 =
      ⟨⟨1, 1⟩, ⟨1, 3⟩⟩ := by
  have h := c1_occurrence_mapping.1
    (getValue [['a','b'], ['c','a','b'], ['a','b','c']]) ['a','b'] 4
  exact h.trans (by decide)

theorem clampPos_nat (doc : Doc) (l : Nat) (hl : l < doc.length) :
    clampPos doc (l : Int) 0 = ⟨l, 0⟩ := by
  have hif : ¬ ((doc.length : Int) ≤ (l : Int)) := by omega
  have h1 : (max (l : Int) 0).toNat = l := by omega
  simp [clampPos, hif, h1]

theorem clampPos_over (doc : Doc) (l : Nat) (hl : doc.length ≤ l) :
    clampPos doc (l : Int) 0 =
      ⟨doc.length - 1, (getLine doc (doc.length - 1)).length⟩ := by
  have hif : (doc.length : Int) ≤ (l : Int) := by omega
  simp [clampPos, hif]

theorem clampPos_ne_anchor (doc : Doc) (s i : Nat) (hi : 1 ≤ i)
    (hs : s < doc.length)
    (hexc : ¬(s = doc.length - 1 ∧ (getLine doc (doc.length - 1)).length = 0)) :
    (⟨s, 0⟩ : Pos) ≠ clampPos doc ((s + i : Nat) : Int) 0 := by
  by_cases hin : s + i < doc.length
  · rw [clampPos_nat doc (s + i) hin]
    simp only [ne_eq, Pos.mk.injEq, not_and]
    omega
  · rw [clampPos_over doc (s + i) (by omega)]
    intro he
    have h1 : s = doc.length - 1 := congrArg Pos.line he
    have h2 : 0 = (getLine doc (doc.length - 1)).length := congrArg Pos.ch he
    exact hexc ⟨h1, h2.symm⟩

theorem selectLine_step_reset (doc : Doc) (s c : Nat) (p0 : LineSelState)
    (hs : s < doc.length) :
    handleSelectLine p0 ⟨doc, [⟨⟨s, c⟩, ⟨s, c⟩⟩]⟩ =
      (⟨1, (s : Int)⟩, ⟨doc, [⟨⟨s, 0⟩, clampPos doc ((s + 1 : Nat) : Int) 0⟩]⟩) := by
  have hsel : somethingSelected ⟨doc, [⟨⟨s, c⟩, ⟨s, c⟩⟩]⟩ = false := by
    simp [somethingSelected]
  have h1 : clampPos doc ((s : Nat) : Int) 0 = ⟨s, 0⟩ := clampPos_nat doc s hs
  have h2 : clampPos doc (((s : Nat) : Int) + 1) 0 =
      clampPos doc ((s + 1 : Nat) : Int) 0 := by
    rw [show (((s : Nat) : Int) + 1) = ((s + 1 : Nat) : Int) by push_cast; ring]
  simp [handleSelectLine, hsel, getCursor, h1, h2]

theorem selectLine_step_grow (doc : Doc) (s i : Nat) (hi : 1 ≤ i)
    (hs : s < doc.length)
    (hne : (⟨s, 0⟩ : Pos) ≠ clampPos doc ((s + i : Nat) : Int) 0) :
    handleSelectLine ⟨i, (s : Int)⟩
        ⟨doc, [⟨⟨s, 0⟩, clampPos doc ((s + i : Nat) : Int) 0⟩]⟩ =
      (⟨i + 1, (s : Int)⟩,
       ⟨doc, [⟨⟨s, 0⟩, clampPos doc ((s + i + 1 : Nat) : Int) 0⟩]⟩) := by
  have hsel : somethingSelected
      ⟨doc, [⟨⟨s, 0⟩, clampPos doc ((s + i : Nat) : Int) 0⟩]⟩ = true := by
    simp only [somethingSelected, List.any_cons, List.any_nil, Bool.or_false,
      decide_eq_true_eq]
    exact hne
  push_cast at hsel
  have hcount : i ≠ 0 := by omega
  have h1 : clampPos doc ((s : Nat) : Int) 0 = ⟨s, 0⟩ := clampPos_nat doc s hs
  simp [handleSelectLine, hsel, hcount, h1]

theorem filter_congr_mem_bool {α : Type} {l : List α} {p q : α → Bool}
    (h : ∀ a ∈ l, p a = q a) : l.filter p = l.filter q := by
  induction l with
  | nil => rfl
  | cons a t ih =>
    simp only [List.filter_cons, h a (List.mem_cons_self a t)]
    rw [ih (fun x hx => h x (List.mem_cons_of_mem a hx))]

theorem filter_range_interval_len (a b : Nat) :
    ∀ N : Nat,
      ((List.range N).filter (fun l => decide (a ≤ l) && decide (l < b))).length =
        min b N - min a N := by
  intro N
  induction N with
  | zero => simp
  | succ n ih =>
    rw [List.range_succ, List.filter_append, List.length_append, ih]
    by_cases h1 : a ≤ n <;> by_cases h2 : n < b <;> simp [h1, h2] <;> omega

theorem posLeB_true_iff (p q : Pos) :
    posLeB p q = true ↔ (p.line < q.line ∨ (p.line = q.line ∧ p.ch ≤ q.ch)) := by
  simp [posLeB]

theorem posLeB_col0_left (a : Nat) (q : Pos) :
    posLeB ⟨a, 0⟩ q = decide (a ≤ q.line) := by
  by_cases h : a ≤ q.line <;> simp [posLeB, h] <;> omega

theorem coversLineB_head0 (doc : Doc) (s e l : Nat) (he : e < doc.length)
    (hc : ¬(e = doc.length - 1 ∧ (getLine doc (doc.length - 1)).length = 0)) :
    coversLineB doc ⟨⟨s, 0⟩, ⟨e, 0⟩⟩ l = (decide (s ≤ l) && decide (l < e)) := by
  unfold coversLineB
  rw [posLeB_col0_left]
  by_cases hl1 : l + 1 < doc.length
  · rw [if_pos hl1, posLeB_col0_left]
    rfl
  · rw [if_neg hl1]
    have hfalse : posLeB ⟨l, (getLine doc l).length⟩ ⟨e, 0⟩ = false := by
      apply Bool.eq_false_iff.mpr
      intro htrue
      have h' := (posLeB_true_iff _ _).mp htrue
      rcases h' with h' | ⟨he2, hlen⟩
      · simp only at h'
        omega
      · simp only at he2 hlen
        have heq : e = doc.length - 1 := by omega
        have hleq : l = doc.length - 1 := by omega
        exact hc ⟨heq, by rw [← hleq]; omega⟩
    rw [hfalse]
    have hd : decide (l < e) = false := decide_eq_false (by omega)
    rw [hd]

theorem coversLineB_headEnd (doc : Doc) (s l : Nat) (hl : l < doc.length) :
    coversLineB doc
        ⟨⟨s, 0⟩, ⟨doc.length - 1, (getLine doc (doc.length - 1)).length⟩⟩ l =
      (decide (s ≤ l) && decide (l < doc.length)) := by
  rw [decide_eq_true hl, Bool.and_true]
  unfold coversLineB
  rw [posLeB_col0_left]
  have hsnd : (if l + 1 < doc.length then
      posLeB ⟨l + 1, 0⟩ ⟨doc.length - 1, (getLine doc (doc.length - 1)).length⟩
    else
      posLeB ⟨l, (getLine doc l).length⟩
        ⟨doc.length - 1, (getLine doc (doc.length - 1)).length⟩) = true := by
    by_cases hl1 : l + 1 < doc.length
    · rw [if_pos hl1, posLeB_col0_left]
      simp only [decide_eq_true_eq]
      omega
    · rw [if_neg hl1]
      have hleq : l = doc.length - 1 := by omega
      subst hleq
      exact (posLeB_true_iff _ _).mpr (Or.inr ⟨rfl, le_refl _⟩)
  rw [hsnd, Bool.and_true]

theorem fullLines_inbounds (doc : Doc) (s e : Nat) (hse : s ≤ e)
    (he : e < doc.length)
    (hc : ¬(e = doc.length - 1 ∧ (getLine doc (doc.length - 1)).length = 0)) :
    fullLinesCovered doc ⟨⟨s, 0⟩, ⟨e, 0⟩⟩ = e - s := by
  unfold fullLinesCovered
  rw [filter_congr_mem_bool (fun l _ => coversLineB_head0 doc s e l he hc)]
  rw [filter_range_interval_len s e doc.length]
  omega

theorem fullLines_clamped (doc : Doc) (s : Nat) (hs : s < doc.length) :
    fullLinesCovered doc
        ⟨⟨s, 0⟩, ⟨doc.length - 1, (getLine doc (doc.length - 1)).length⟩⟩ =
      doc.length - s := by
  unfold fullLinesCovered
  rw [filter_congr_mem_bool
    (fun l hl => coversLineB_headEnd doc s l (List.mem_range.mp hl))]
  rw [filter_range_interval_len s doc.length doc.length]
  omega

/-- C3 (amended): starting from a collapsed cursor on line `startLine` (so
the first invocation resets the run), `k` line-select invocations (k < N)
with no intervening reset keep the run state in lockstep — after invocation
`i` the state is `(selectLineCount = i, lastSelectedLine = startLine)` and
the selection is anchored at column 0 of `startLine` with head at the
host-clipped position of (startLine + i, column 0): the anchor never
changes, each press extends the head by exactly one line downward to
(startLine + i, 0) while that stays in bounds, and past the end the head
clips to the end of the last line.  After `k` presses the selection covers
exactly `min(k, N - startLine)` full lines — except in the boundary
configuration `startLine + k = N - 1` with an empty last line, where the
head lands unclamped on the empty last line, which is then also (vacuously)
fully covered, making the count `min + 1`; that configuration is excluded
here and refuted in the counterexample.  (The no-reset requirement is the
claim's own hypothesis: when k ≥ 2 the degenerate start on an empty last
line is excluded, since its second press would observe an empty selection
and reset.) -/
theorem c3_line_select_growth (doc : Doc) (s c k : Nat) (p0 : LineSelState)
    (hs : s < doc.length) (hk : 1 ≤ k) (hkN : k < doc.length)
    (hnr : 2 ≤ k → ¬(s = doc.length - 1 ∧ (getLine doc (doc.length - 1)).length = 0))
    (hcorner : ¬(s + k = doc.length - 1 ∧ (getLine doc (doc.length - 1)).length = 0)) :
    (∀ i, 1 ≤ i → i ≤ k →
      runSelectLine i (p0, ⟨doc, [⟨⟨s, c⟩, ⟨s, c⟩⟩]⟩) =
        (⟨i, (s : Int)⟩, ⟨doc, [⟨⟨s, 0⟩, clampPos doc ((s + i : Nat) : Int) 0⟩]⟩)) ∧
    (∀ i, s + i < doc.length → clampPos doc ((s + i : Nat) : Int) 0 = ⟨s + i, 0⟩) ∧
    fullLinesCovered doc ⟨⟨s, 0⟩, clampPos doc ((s + k : Nat) : Int) 0⟩ =
      min k (doc.length - s) := by
  refine ⟨?_, fun i hi => clampPos_nat doc (s + i) hi, ?_⟩
  · intro i
    induction i with
    | zero => omega
    | succ n ih =>
      intro _ hle
      cases Nat.eq_zero_or_pos n with
      | inl h0 =>
        subst h0
        show handleSelectLine
          (runSelectLine 0 (p0, ⟨doc, [⟨⟨s, c⟩, ⟨s, c⟩⟩]⟩)).1
          (runSelectLine 0 (p0, ⟨doc, [⟨⟨s, c⟩, ⟨s, c⟩⟩]⟩)).2 = _
        simpa [runSelectLine] using selectLine_step_reset doc s c p0 hs
      | inr hpos =>
        have hn := ih hpos (by omega)
        have hexc : ¬(s = doc.length - 1 ∧ (getLine doc (doc.length - 1)).length = 0) :=
          hnr (by omega)
        show handleSelectLine
          (runSelectLine n (p0, ⟨doc, [⟨⟨s, c⟩, ⟨s, c⟩⟩]⟩)).1
          (runSelectLine n (p0, ⟨doc, [⟨⟨s, c⟩, ⟨s, c⟩⟩]⟩)).2 = _
        rw [hn]
        exact selectLine_step_grow doc s n hpos hs
          (clampPos_ne_anchor doc s n hpos hs hexc)
  · by_cases hsat : s + k < doc.length
    · rw [clampPos_nat doc (s + k) hsat]
      rw [fullLines_inbounds doc s (s + k) (by omega) hsat hcorner]
      omega
    · rw [clampPos_over doc (s + k) (by omega)]
      rw [fullLines_clamped doc s hs]
      omega

/-- C3 counterexample: on the two-line document with an empty last line
("a\n"), one press (k = 1 < N = 2) from a collapsed cursor on line 0 issues
the selection {0,0}-{1,0}, which fully covers both lines — the whole
document, the empty last line included — i.e. 2 full lines, not
`min(1, 2 - 0) = 1` as the claim states. -/
theorem c3_line_select_growth_counterexample :
    (runSelectLine 1 (⟨0, -1⟩, ⟨[['a'], []], [⟨⟨0, 0⟩, ⟨0, 0⟩⟩]⟩)).2.sels =
      [⟨⟨0, 0⟩, ⟨1, 0⟩⟩] ∧
    fullLinesCovered [['a'], []] ⟨⟨0, 0⟩, ⟨1, 0⟩⟩ = 2 ∧
    min 1 (([['a'], []] : Doc).length - 0) = 1 ∧ (2 : Nat) ≠ 1 := by
  decide

/-- C3 witness: the saturation case — one press starting on the last line of
a two-line document clips the head to the end of that line, selecting
exactly `min(1, 2 - 1) = 1` full line. -/
theorem c3_line_select_growth_witness :
    runSelectLine 1 (⟨0, -1⟩, ⟨[['a'], ['b']], [⟨⟨1, 0⟩, ⟨1, 0⟩⟩]⟩) =
      (⟨1, 1⟩, ⟨[['a'], ['b']], [⟨⟨1, 0⟩, ⟨1, 1⟩⟩]⟩) ∧
    fullLinesCovered [['a'], ['b']] ⟨⟨1, 0⟩, ⟨1, 1⟩⟩ = 1 := by
  have h := c3_line_select_growth [['a'], ['b']] 1 0 1 ⟨0, -1⟩ (by decide)
    (by decide) (by decide) (by decide) (by decide)
  have h3 := h.2.2
  rw [show clampPos [['a'], ['b']] ((1 + 1 : Nat) : Int) 0 = ⟨1, 1⟩ from by decide] at h3
  exact ⟨(h.1 1 (by decide) (by decide)).trans (by decide), h3.trans (by decide)⟩

theorem take_succ_getD {α : Type} (l : List α) (n : Nat) (d : α) (h : n < l.length) :
    l.take (n + 1) = l.take n ++ [l.getD n d] := by
  induction l generalizing n with
  | nil => simp at h
  | cons x xs ih =>
    cases n with
    | zero => simp [List.getD]
    | succ m =>
      simp only [List.take_succ_cons, List.getD_cons_succ, List.cons_append]
      rw [ih m (by simpa using h)]

theorem getD_append_left {α : Type} (A B : List α) (n : Nat) (d : α)
    (h : n < A.length) : (A ++ B).getD n d = A.getD n d := by
  induction A generalizing n with
  | nil => simp at h
  | cons x xs ih =>
    cases n with
    | zero => simp
    | succ m =>
      simp only [List.cons_append, List.getD_cons_succ]
      exact ih m (by simpa using h)

theorem getD_take {α : Type} (l : List α) (m n : Nat) (d : α) (h : n < m) :
    (l.take m).getD n d = l.getD n d := by
  induction l generalizing m n with
  | nil => simp
  | cons x xs ih =>
    cases m with
    | zero => omega
    | succ m2 =>
      cases n with
      | zero => simp
      | succ n2 =>
        simp only [List.take_succ_cons, List.getD_cons_succ]
        exact ih m2 n2 (by omega)

theorem getD_drop {α : Type} (l : List α) (a n : Nat) (d : α) :
    (l.drop a).getD n d = l.getD (a + n) d := by
  induction l generalizing a with
  | nil => simp
  | cons x xs ih =>
    cases a with
    | zero => simp
    | succ a2 =>
      simp only [List.drop_succ_cons]
      rw [ih a2]
      have : a2 + 1 + n = (a2 + n) + 1 := by omega
      rw [this, List.getD_cons_succ]

theorem rangeMap_getLine (doc : Doc) (a n : Nat) (h : a + n ≤ doc.length) :
    (List.range n).map (fun i => getLine doc (a + i)) = (doc.drop a).take n := by
  induction n with
  | zero => simp
  | succ m ih =>
    rw [List.range_succ, List.map_append]
    rw [ih (by omega)]
    have hlt : m < (doc.drop a).length := by
      simp only [List.length_drop]
      omega
    rw [take_succ_getD (doc.drop a) m [] hlt]
    congr 1
    simp [getLine, getD_drop]

theorem splitNl_no_nl (x : List Char) (h : '\n' ∉ x) : splitNl x = [x] := by
  induction x with
  | nil => rfl
  | cons c rest ih =>
    simp only [List.mem_cons, not_or] at h
    have hc : ¬ c = '\n' := fun e => h.1 e.symm
    simp [splitNl, hc, ih h.2]

theorem splitNl_append_nl (x s : List Char) (h : '\n' ∉ x) :
    splitNl (x ++ '\n' :: s) = x :: splitNl s := by
  induction x with
  | nil => simp [splitNl]
  | cons c rest ih =>
    simp only [List.mem_cons, not_or] at h
    have hc : ¬ c = '\n' := fun e => h.1 e.symm
    simp [splitNl, hc, ih h.2]

theorem splitNl_joinNl (ls : List (List Char)) (h : ∀ l ∈ ls, '\n' ∉ l)
    (hne : ls ≠ []) : splitNl (joinNl ls) = ls := by
  induction ls with
  | nil => exact absurd rfl hne
  | cons x rest ih =>
    cases rest with
    | nil => simpa [joinNl] using splitNl_no_nl x (h x (List.mem_cons_self _ _))
    | cons y t =>
      have hx : '\n' ∉ x := h x (List.mem_cons_self _ _)
      have hr : ∀ l ∈ y :: t, '\n' ∉ l := fun l hl => h l (List.mem_cons_of_mem _ hl)
      show splitNl (x ++ '\n' :: joinNl (y :: t)) = x :: y :: t
      rw [splitNl_append_nl x _ hx, ih hr (by simp)]

theorem attachLast_nil_post (ps : List (List Char)) (h : ps ≠ []) :
    attachLast [] ps = ps := by
  induction ps with
  | nil => exact absurd rfl h
  | cons p rest ih =>
    cases rest with
    | nil => simp [attachLast]
    | cons q t =>
      show p :: attachLast [] (q :: t) = p :: q :: t
      rw [ih (by simp)]

theorem insertAt_eol (doc : Doc) (l : Nat) (t : List Char) (hl : l < doc.length) :
    insertAt doc l (getLine doc l).length ('\n' :: t) =
      doc.take (l + 1) ++ splitNl t ++ doc.drop (l + 1) := by
  unfold insertAt
  rw [List.take_length, List.drop_length]
  have hs : splitNl ('\n' :: t) = [] :: splitNl t := by simp [splitNl]
  rw [hs]
  cases hsp : splitNl t with
  | nil => exact absurd hsp (splitNl_ne_nil t)
  | cons q qs =>
    have hsplice : spliceLines (getLine doc l) [] ([] :: q :: qs) =
        (getLine doc l ++ []) :: attachLast [] (q :: qs) := rfl
    rw [hsplice, attachLast_nil_post _ (by simp), List.append_nil]
    rw [take_succ_getD doc l [] hl]
    simp [getLine]

theorem getLine_insertAt_eol (doc : Doc) (l : Nat) (t : List Char)
    (hl : l < doc.length) :
    getLine (insertAt doc l (getLine doc l).length ('\n' :: t)) l =
      getLine doc l := by
  rw [insertAt_eol doc l t hl]
  unfold getLine
  have h1 : l < (doc.take (l + 1)).length := by
    simp only [List.length_take]
    omega
  have h2 : l < (doc.take (l + 1) ++ splitNl t).length := by
    simp only [List.length_append]
    omega
  rw [getD_append_left _ _ l [] h2, getD_append_left _ _ l [] h1]
  exact getD_take doc (l + 1) l [] (by omega)

theorem handleDupDown_single (doc : Doc) (sel : Sel) (a b : Nat)
    (ha : a = min sel.anchor.line sel.head.line)
    (hbdef : b = max sel.anchor.line sel.head.line)
    (hb : b < doc.length) :
    handleDuplicateLineDown ⟨doc, [sel]⟩ =
      ⟨insertAt doc b (getLine doc b).length
        ('\n' :: joinNl ((List.range (b - a + 1)).map (fun i => getLine doc (a + i)))),
       [⟨⟨b + 1, if sel.anchor.line = a then sel.anchor.ch else 0⟩,
         ⟨b + (b - a + 1),
          if sel.head.line = b then sel.head.ch else (getLine doc b).length⟩⟩]⟩ := by
  subst ha hbdef
  simp only [handleDuplicateLineDown, List.foldl_cons, List.foldl_nil, dupDownStep]
  rw [getLine_insertAt_eol doc _ _ hb]
  simp

/-- C4 (amended): for a single selection, duplicate-line-down produces the
new selection spanning lines `endLine+1` through `endLine+lineCount`, with
start column equal to the original anchor column exactly when the original
anchor line was `startLine` and 0 otherwise, and end column equal to the
original head column exactly when the original head line was `endLine` and
otherwise the length of line `endLine` (not 0). -/
theorem c4_duplicate_selection_columns (doc : Doc) (sel : Sel)
    (hb : max sel.anchor.line sel.head.line < doc.length) :
    (handleDuplicateLineDown ⟨doc, [sel]⟩).sels =
      [⟨⟨max sel.anchor.line sel.head.line + 1,
         if sel.anchor.line = min sel.anchor.line sel.head.line then sel.anchor.ch
         else 0⟩,
        ⟨max sel.anchor.line sel.head.line +
          (max sel.anchor.line sel.head.line - min sel.anchor.line sel.head.line + 1),
         if sel.head.line = max sel.anchor.line sel.head.line then sel.head.ch
         else (getLine doc (max sel.anchor.line sel.head.line)).length⟩⟩] := by
  rw [handleDupDown_single doc sel _ _ rfl rfl hb]

/-- C4 counterexample: for the backward selection anchor {1,1} / head {0,0}
on the document ["ab", "cd"], the head line 0 differs from endLine 1, and
the new selection's end column is 2 (the length of line "cd"), not 0 as the
claim states. -/
theorem c4_duplicate_selection_columns_counterexample :
    (handleDuplicateLineDown ⟨[['a','b'], ['c','d']], [⟨⟨1,1⟩,⟨0,0⟩⟩]⟩).sels =
      [⟨⟨2, 0⟩, ⟨3, 2⟩⟩] ∧ (2 : Nat) ≠ 0 := by
  decide

/-- C4 witness: the column rule at a concrete forward selection
{0,1}-{1,2} on ["ab", "cd"]: both boundary columns carry over. -/
theorem c4_duplicate_selection_columns_witness :
    (handleDuplicateLineDown ⟨[['a','b'], ['c','d']], [⟨⟨0,1⟩,⟨1,2⟩⟩]⟩).sels =
      [⟨⟨2, 1⟩, ⟨3, 2⟩⟩] := by
  have h := c4_duplicate_selection_columns [['a','b'], ['c','d']] ⟨⟨0,1⟩,⟨1,2⟩⟩
    (by decide)
  exact h.trans (by decide)

theorem delete_mid {α : Type} (A B C : List α) :
    (A ++ B ++ C).take A.length ++ (A ++ B ++ C).drop (A.length + B.length) =
      A ++ C := by
  rw [show A.length + B.length = (A ++ B).length by simp]
  rw [List.drop_left]
  rw [List.append_assoc, List.take_left]

/-- C7: duplicate-line-down on a selection spanning lines `[a, b]` turns the
document into `take (b+1) ++ lines a..b ++ drop (b+1)` — i.e. it inserts,
right after the end of line `b`, a newline followed by the verbatim copy of
lines `a..b` and changes nothing else — and deleting the `(b-a+1)` newly
inserted lines (with the line breaks that introduced them) restores the
original document exactly. -/
theorem c7_duplicate_round_trip (doc : Doc) (sel : Sel)
    (hnl : ∀ l ∈ doc, '\n' ∉ l)
    (hb : max sel.anchor.line sel.head.line < doc.length) :
    (handleDuplicateLineDown ⟨doc, [sel]⟩).doc =
      doc.take (max sel.anchor.line sel.head.line + 1) ++
        (doc.drop (min sel.anchor.line sel.head.line)).take
          (max sel.anchor.line sel.head.line - min sel.anchor.line sel.head.line + 1) ++
        doc.drop (max sel.anchor.line sel.head.line + 1) ∧
    deleteLines (handleDuplicateLineDown ⟨doc, [sel]⟩).doc
        (max sel.anchor.line sel.head.line + 1)
        (max sel.anchor.line sel.head.line - min sel.anchor.line sel.head.line + 1) =
      doc := by
  have hab : min sel.anchor.line sel.head.line ≤ max sel.anchor.line sel.head.line :=
    min_le_max
  rw [handleDupDown_single doc sel _ _ rfl rfl hb]
  dsimp only
  have hlines : (List.range
        (max sel.anchor.line sel.head.line - min sel.anchor.line sel.head.line + 1)).map
        (fun i => getLine doc (min sel.anchor.line sel.head.line + i)) =
      (doc.drop (min sel.anchor.line sel.head.line)).take
        (max sel.anchor.line sel.head.line - min sel.anchor.line sel.head.line + 1) :=
    rangeMap_getLine doc _ _ (by omega)
  have hmem : ∀ l ∈ (doc.drop (min sel.anchor.line sel.head.line)).take
      (max sel.anchor.line sel.head.line - min sel.anchor.line sel.head.line + 1),
      '\n' ∉ l :=
    fun l hl => hnl l (List.drop_subset _ _ (List.take_subset _ _ hl))
  have hlen : ((doc.drop (min sel.anchor.line sel.head.line)).take
      (max sel.anchor.line sel.head.line - min sel.anchor.line sel.head.line + 1)).length =
      max sel.anchor.line sel.head.line - min sel.anchor.line sel.head.line + 1 := by
    simp only [List.length_take, List.length_drop]
    omega
  have hne : (doc.drop (min sel.anchor.line sel.head.line)).take
      (max sel.anchor.line sel.head.line - min sel.anchor.line sel.head.line + 1) ≠ [] := by
    intro e
    rw [e] at hlen
    simp at hlen
  rw [hlines, insertAt_eol doc _ _ hb, splitNl_joinNl _ hmem hne]
  refine ⟨rfl, ?_⟩
  unfold deleteLines
  have hA : (doc.take (max sel.anchor.line sel.head.line + 1)).length =
      max sel.anchor.line sel.head.line + 1 := by
    simp only [List.length_take]
    omega
  have := delete_mid (doc.take (max sel.anchor.line sel.head.line + 1))
    ((doc.drop (min sel.anchor.line sel.head.line)).take
      (max sel.anchor.line sel.head.line - min sel.anchor.line sel.head.line + 1))
    (doc.drop (max sel.anchor.line sel.head.line + 1))
  rw [hA, hlen] at this
  rw [this]
  exact List.take_append_drop _ doc

/-- C7 witness: duplicating the full two-line selection of ["x", "y"] and
deleting the two inserted lines restores the document. -/
theorem c7_duplicate_round_trip_witness :
    deleteLines (handleDuplicateLineDown ⟨[['x'], ['y']], [⟨⟨0,0⟩,⟨1,0⟩⟩]⟩).doc 2 2 =
      [['x'], ['y']] := by
  have h := c7_duplicate_round_trip [['x'], ['y']] ⟨⟨0,0⟩,⟨1,0⟩⟩ (by decide) (by decide)
  exact h.2

/-- C6 (amended): with a non-empty current selection, word-select/expand
searches the cursor's line only, for the first literal occurrence of the
selected text starting at or after the last selection's end column (the
occurrence may begin exactly at that column); when one exists it is appended
to the selection set as a new selection spanning exactly that occurrence
(previous selections are retained), and when none exists the selection set
is unchanged; the document is never modified and no other line is
searched. -/
theorem c6_word_expand (st : EditorState) (lastS : Sel)
    (hlast : st.sels.getLast? = some lastS)
    (hsel : getSelectionText st ≠ []) :
    (handleSelectWordOrExpand st).doc = st.doc ∧
    ((∃ j, indexOfFrom (getLine st.doc (getCursor st).line) (getSelectionText st)
          lastS.head.ch = some j ∧
        lastS.head.ch ≤ j ∧
        occursAtB (getLine st.doc (getCursor st).line) (getSelectionText st) j
          = true ∧
        (∀ m, lastS.head.ch ≤ m → m < j →
          occursAtB (getLine st.doc (getCursor st).line) (getSelectionText st) m
            = false) ∧
        (handleSelectWordOrExpand st).sels =
          st.sels ++ [⟨⟨(getCursor st).line, j⟩,
            ⟨(getCursor st).line, j + (getSelectionText st).length⟩⟩]) ∨
      (indexOfFrom (getLine st.doc (getCursor st).line) (getSelectionText st)
          lastS.head.ch = none ∧
        (∀ m, lastS.head.ch ≤ m →
          occursAtB (getLine st.doc (getCursor st).line) (getSelectionText st) m
            = false) ∧
        (handleSelectWordOrExpand st).sels = st.sels)) := by
  have hempty : (getSelectionText st).isEmpty = false := by
    cases hx : getSelectionText st with
    | nil => exact absurd hx hsel
    | cons c t => rfl
  cases hidx : indexOfFrom (getLine st.doc (getCursor st).line) (getSelectionText st)
      lastS.head.ch with
  | some j =>
    obtain ⟨h1, h2, h3⟩ := indexOfFrom_some hidx
    constructor
    · simp only [handleSelectWordOrExpand, hempty, Bool.false_eq_true, if_false,
        hlast, hidx]
    · left
      refine ⟨j, rfl, h1, h2, h3, ?_⟩
      simp only [handleSelectWordOrExpand, hempty, Bool.false_eq_true, if_false,
        hlast, hidx]
  | none =>
    constructor
    · simp only [handleSelectWordOrExpand, hempty, Bool.false_eq_true, if_false,
        hlast, hidx]
    · right
      refine ⟨rfl, indexOfFrom_none hsel hidx, ?_⟩
      simp only [handleSelectWordOrExpand, hempty, Bool.false_eq_true, if_false,
        hlast, hidx]

/-- C6 counterexample: on the line "abab" with the selection {0,0}-{0,2}
("ab"), there is no occurrence of "ab" starting strictly after the
selection's end column 2 (`indexOf` from 3 finds nothing), yet the handler
does change the selection set: it appends the occurrence starting exactly at
column 2. -/
theorem c6_word_expand_counterexample :
    (handleSelectWordOrExpand ⟨[['a','b','a','b']], [⟨⟨0,0⟩,⟨0,2⟩⟩]⟩).sels =
      [⟨⟨0,0⟩,⟨0,2⟩⟩, ⟨⟨0,2⟩,⟨0,4⟩⟩] ∧
    indexOfFrom ['a','b','a','b'] ['a','b'] 3 = none ∧
    [(⟨⟨0,0⟩,⟨0,2⟩⟩ : Sel), ⟨⟨0,2⟩,⟨0,4⟩⟩] ≠ [⟨⟨0,0⟩,⟨0,2⟩⟩] := by
  decide

/-- C6 witness: the characterization applied at the concrete state with line
"abab" and selection "ab" ending at column 2: the document is unchanged and
the appended occurrence spans {0,2}-{0,4}. -/
theorem c6_word_expand_witness :
    (handleSelectWordOrExpand ⟨[['a','b','a','b']], [⟨⟨0,0⟩,⟨0,2⟩⟩]⟩).doc =
      [['a','b','a','b']] ∧
    (handleSelectWordOrExpand ⟨[['a','b','a','b']], [⟨⟨0,0⟩,⟨0,2⟩⟩]⟩).sels =
      [⟨⟨0,0⟩,⟨0,2⟩⟩, ⟨⟨0,2⟩,⟨0,4⟩⟩] := by
  have h := c6_word_expand ⟨[['a','b','a','b']], [⟨⟨0,0⟩,⟨0,2⟩⟩]⟩ ⟨⟨0,0⟩,⟨0,2⟩⟩
    (by decide) (by decide)
  exact ⟨h.1, by decide⟩
